import Mathlib

/-!
Verification of the parameter-generation core of the tensor-based
augmentation transforms (`albumentations/pytorch/augmentations/dual/transforms.py`
and `albumentations/pytorch/augmentations/utils.py`).

The grid partition, tile permutation, crop-parameter sampling, padding and
dtype-adaptation logic are embedded as executable Lean definitions.  Machine
reals are modelled by `ℚ`, tensors by index functions or lists, and the
seeded pseudo-random generator by an explicitly threaded `Nat` state.
`np.linspace(0, L, p + 1, dtype=int)` is modelled by the exact integer value
`⌊i * L / p⌋` of its i-th entry.
-/

namespace AlbTorch

/-! ### Grid partition (RandomGridShuffleTorch.get_params_dependent_on_targets)

`height_split = np.linspace(0, height, n + 1, dtype=np.int)` gives the n+1
row boundaries; tile heights are consecutive differences.  Same for columns.
-/

/-- The i-th entry of `np.linspace(0, len, parts + 1, dtype=int)`:
the truncation of `i * len / parts`. -/
def splitPoint (len parts i : Nat) : Nat := i * len / parts

/-- Height of the i-th row of tiles: `height_split[i+1] - height_split[i]`. -/
def rowH (H n i : Nat) : Nat := splitPoint H n (i + 1) - splitPoint H n i

/-- Width of the j-th column of tiles: `width_split[j+1] - width_split[j]`. -/
def colW (W m j : Nat) : Nat := splitPoint W m (j + 1) - splitPoint W m j

/-- Cell index pairs `(i, j)` in row-major order, the order produced by
`np.indices((n, m))` flattened / boolean-mask gathering. -/
def cells (n m : Nat) : List (Nat × Nat) := (List.range n) ×ˢ (List.range m)

/-- The `(height, width)` size signature of cell `c` (entry of `tiles_sizes`). -/
def tileSize (H W n m : Nat) (c : Nat × Nat) : Nat × Nat :=
  (rowH H n c.1, colW W m c.2)

theorem splitPoint_zero (len parts : Nat) : splitPoint len parts 0 = 0 := by
  simp [splitPoint]

theorem splitPoint_last (len parts : Nat) (hp : 0 < parts) :
    splitPoint len parts parts = len := by
  simpa [splitPoint] using Nat.mul_div_cancel_left len hp

theorem splitPoint_mono (len parts : Nat) {i j : Nat} (h : i ≤ j) :
    splitPoint len parts i ≤ splitPoint len parts j :=
  Nat.div_le_div_right (Nat.mul_le_mul_right _ h)

/-- Telescoping sum of consecutive differences of a monotone `Nat` sequence. -/
theorem sum_consecutive_diffs (f : Nat → Nat) (hf : ∀ i j, i ≤ j → f i ≤ f j) :
    ∀ N, (∑ i ∈ Finset.range N, (f (i + 1) - f i)) = f N - f 0 := by
  intro N
  induction N with
  | zero => simp
  | succ N ih =>
      rw [Finset.sum_range_succ, ih]
      have h1 : f 0 ≤ f N := hf 0 N (Nat.zero_le N)
      have h2 : f N ≤ f (N + 1) := hf N (N + 1) (Nat.le_succ N)
      omega

theorem sum_rowH (H n : Nat) (hn : 0 < n) :
    (∑ i ∈ Finset.range n, rowH H n i) = H := by
  have := sum_consecutive_diffs (splitPoint H n)
    (fun i j h => splitPoint_mono H n h) n
  simpa [rowH, splitPoint_zero, splitPoint_last H n hn] using this

theorem sum_colW (W m : Nat) (hm : 0 < m) :
    (∑ j ∈ Finset.range m, colW W m j) = W := by
  have := sum_consecutive_diffs (splitPoint W m)
    (fun i j h => splitPoint_mono W m h) m
  simpa [colW, splitPoint_zero, splitPoint_last W m hm] using this

/-- Every point below `f N` lies in one of the consecutive intervals. -/
theorem exists_interval (f : Nat → Nat) (y : Nat) :
    ∀ N, f 0 ≤ y → y < f N → ∃ i, i < N ∧ f i ≤ y ∧ y < f (i + 1) := by
  intro N
  induction N with
  | zero => intro h0 h1; omega
  | succ N ih =>
      intro h0 h1
      by_cases hN : f N ≤ y
      · exact ⟨N, Nat.lt_succ_self N, hN, h1⟩
      · obtain ⟨i, hi, h2, h3⟩ := ih h0 (by omega)
        exact ⟨i, Nat.lt_succ_of_lt hi, h2, h3⟩

theorem interval_unique (f : Nat → Nat) (hf : ∀ i j, i ≤ j → f i ≤ f j)
    {y i j : Nat} (hi : f i ≤ y ∧ y < f (i + 1)) (hj : f j ≤ y ∧ y < f (j + 1)) :
    i = j := by
  by_contra hne
  rcases Nat.lt_or_ge i j with h | h
  · have : f (i + 1) ≤ f j := hf (i + 1) j h
    omega
  · have hj' : j < i := by omega
    have : f (j + 1) ≤ f i := hf (j + 1) i hj'
    omega

/-- C1: for every `H > 0`, `W > 0` and grid dimensions `(n, m)` with `n > 0`,
`m > 0`, `n ≤ H / 2`, `m ≤ W / 2`, the grid produced by the partition step of
`RandomGridShuffleTorch.get_params_dependent_on_targets` tiles the `H × W`
image exactly: tile heights (in each column) sum to `H`, tile widths (in each
row) sum to `W`, and every image point lies in exactly one cell (no gaps, no
overlaps). -/
theorem grid_partition_tiles_exactly (H W n m : Nat) (_hH : 0 < H) (_hW : 0 < W)
    (hn : 0 < n) (hm : 0 < m) (_hnH : n ≤ H / 2) (_hmW : m ≤ W / 2) :
    ((∑ i ∈ Finset.range n, rowH H n i) = H ∧
      (∑ j ∈ Finset.range m, colW W m j) = W) ∧
    (∀ y x, y < H → x < W →
      ∃! c : Nat × Nat,
        c ∈ cells n m ∧
        splitPoint H n c.1 ≤ y ∧ y < splitPoint H n (c.1 + 1) ∧
        splitPoint W m c.2 ≤ x ∧ x < splitPoint W m (c.2 + 1)) := by
  refine ⟨⟨sum_rowH H n hn, sum_colW W m hm⟩, ?_⟩
  intro y x hy hx
  obtain ⟨i, hi, hi1, hi2⟩ := exists_interval (splitPoint H n) y n
    (by rw [splitPoint_zero]; exact Nat.zero_le y)
    (by rw [splitPoint_last H n hn]; exact hy)
  obtain ⟨j, hj, hj1, hj2⟩ := exists_interval (splitPoint W m) x m
    (by rw [splitPoint_zero]; exact Nat.zero_le x)
    (by rw [splitPoint_last W m hm]; exact hx)
  refine ⟨(i, j), ⟨?_, hi1, hi2, hj1, hj2⟩, ?_⟩
  · exact List.mem_product.mpr ⟨List.mem_range.mpr hi, List.mem_range.mpr hj⟩
  · rintro ⟨i', j'⟩ ⟨_, hi1', hi2', hj1', hj2'⟩
    have e1 : i' = i := interval_unique (splitPoint H n)
      (fun a b h => splitPoint_mono H n h) ⟨hi1', hi2'⟩ ⟨hi1, hi2⟩
    have e2 : j' = j := interval_unique (splitPoint W m)
      (fun a b h => splitPoint_mono W m h) ⟨hj1', hj2'⟩ ⟨hj1, hj2⟩
    simp [e1, e2]

/-- C1 witness at `H = W = 10`, `n = m = 3`. -/
theorem grid_partition_tiles_exactly_witness :
    ((∑ i ∈ Finset.range 3, rowH 10 3 i) = 10 ∧
      (∑ j ∈ Finset.range 3, colW 10 3 j) = 10) ∧
    (∀ y x, y < 10 → x < 10 →
      ∃! c : Nat × Nat,
        c ∈ cells 3 3 ∧
        splitPoint 10 3 c.1 ≤ y ∧ y < splitPoint 10 3 (c.1 + 1) ∧
        splitPoint 10 3 c.2 ≤ x ∧ x < splitPoint 10 3 (c.2 + 1)) :=
  grid_partition_tiles_exactly 10 10 3 3 (by decide) (by decide) (by decide)
    (by decide) (by decide) (by decide)

/-! ### Boundary spacing (C4) -/

/-- Each tile extent is the floor of `L / p` plus a carry bit. -/
theorem rowH_eq_carry (L p i : Nat) (hp : 0 < p) :
    rowH L p i = L / p + (if p ≤ i * L % p + L % p then 1 else 0) := by
  unfold rowH splitPoint
  have h : (i + 1) * L = i * L + L := by ring
  rw [h, Nat.add_div hp, Nat.add_assoc, Nat.add_sub_cancel_left]

theorem ceil_div_eq (L p : Nat) (hp : 0 < p) (hr : L % p ≠ 0) :
    (L + p - 1) / p = L / p + 1 := by
  have hd := Nat.div_add_mod L p
  have hlt := Nat.mod_lt L hp
  have he : L + p - 1 = p * (L / p + 1) + (L % p - 1) := by
    have hx : p * (L / p + 1) = p * (L / p) + p := by ring
    omega
  rw [he, Nat.mul_add_div hp]
  have h0 : (L % p - 1) / p = 0 := Nat.div_eq_of_lt (by omega)
  omega

theorem rowH_floor_or_ceil (L p i : Nat) (hp : 0 < p) :
    rowH L p i = L / p ∨ rowH L p i = (L + p - 1) / p := by
  rw [rowH_eq_carry L p i hp]
  split_ifs with hc
  · right
    have hrm : L % p ≠ 0 := by
      have h1 := Nat.mod_lt (i * L) hp
      omega
    rw [ceil_div_eq L p hp hrm]
  · left; omega

theorem rowH_extra_iff (L p i : Nat) (hp : 0 < p) :
    rowH L p i = L / p + 1 ↔ p ≤ i * L % p + L % p := by
  rw [rowH_eq_carry L p i hp]
  split_ifs with hc
  · simp [hc]
  · simp only [Nat.add_zero]
    constructor
    · intro h; omega
    · intro h; exact absurd h hc

theorem rowH_last_extra (L p : Nat) (hp : 0 < p) (hr : L % p ≠ 0) :
    rowH L p (p - 1) = L / p + 1 := by
  rw [rowH_extra_iff L p (p - 1) hp]
  have h1 : (p - 1) * L + L = p * L := by
    have hs : p - 1 + 1 = p := Nat.succ_pred_eq_of_pos hp
    calc (p - 1) * L + L = ((p - 1) + 1) * L := by ring
    _ = p * L := by rw [hs]
  have h2 : ((p - 1) * L + L) % p = 0 := by rw [h1]; exact Nat.mul_mod_right p L
  rw [Nat.add_mod] at h2
  have ha := Nat.mod_lt ((p - 1) * L) hp
  have hb := Nat.mod_lt L hp
  by_contra hlt
  push_neg at hlt
  have hsmall : ((p - 1) * L % p + L % p) % p = (p - 1) * L % p + L % p :=
    Nat.mod_eq_of_lt (by omega)
  omega

/-- C4 counterexample: at `height = 10`, `n = 3` (a valid configuration with
`10` not divisible by `3`) the first cell has the floor height `3` while the
last cell has the ceiling height `4`; the earlier cell does NOT absorb the
extra unit. -/
theorem grid_boundaries_earlier_absorb_refuted :
    (0 < 3 ∧ 3 ≤ 10 / 2 ∧ 10 % 3 ≠ 0) ∧
    rowH 10 3 0 = 3 ∧ rowH 10 3 2 = 4 ∧ ¬ (rowH 10 3 2 ≤ rowH 10 3 0) := by
  decide

/-- C4 (amended): for every valid `(L, p)` the `p + 1` boundary points are
monotone integers from `0` to `L` inclusive, consecutive boundaries differ by
`⌊L/p⌋` or `⌈L/p⌉`, cell `i` receives the extra unit exactly when
`p ≤ i*L % p + L % p`, and when `p` does not divide `L` it is the LAST cell
(not an earlier one) that always absorbs an extra unit.  Columns behave the
same way, `colW` being the same function as `rowH`. -/
theorem grid_boundaries_spacing (L p : Nat) (hp : 0 < p) (_hpL : p ≤ L / 2) :
    (splitPoint L p 0 = 0 ∧ splitPoint L p p = L ∧
      ∀ i j, i ≤ j → splitPoint L p i ≤ splitPoint L p j) ∧
    (∀ i, i < p → rowH L p i = L / p ∨ rowH L p i = (L + p - 1) / p) ∧
    (∀ i, i < p → (rowH L p i = L / p + 1 ↔ p ≤ i * L % p + L % p)) ∧
    (L % p ≠ 0 → rowH L p (p - 1) = L / p + 1) ∧
    (∀ j, colW L p j = rowH L p j) := by
  refine ⟨⟨splitPoint_zero L p, splitPoint_last L p hp,
      fun i j h => splitPoint_mono L p h⟩,
    fun i _ => rowH_floor_or_ceil L p i hp,
    fun i _ => rowH_extra_iff L p i hp,
    rowH_last_extra L p hp,
    fun j => rfl⟩

/-- C4 witness at `L = 10`, `p = 3`. -/
theorem grid_boundaries_spacing_witness :
    (splitPoint 10 3 0 = 0 ∧ splitPoint 10 3 3 = 10 ∧
      ∀ i j, i ≤ j → splitPoint 10 3 i ≤ splitPoint 10 3 j) ∧
    (∀ i, i < 3 → rowH 10 3 i = 10 / 3 ∨ rowH 10 3 i = (10 + 3 - 1) / 3) ∧
    (∀ i, i < 3 → (rowH 10 3 i = 10 / 3 + 1 ↔ 3 ≤ i * 10 % 3 + 10 % 3)) ∧
    (10 % 3 ≠ 0 → rowH 10 3 (3 - 1) = 10 / 3 + 1) ∧
    (∀ j, colW 10 3 j = rowH 10 3 j) :=
  grid_boundaries_spacing 10 3 (by decide) (by decide)

/-! ### Tile permutation (RandomGridShuffleTorch, lines 408-426)

`np.random.RandomState(seed)` is modelled by an explicitly threaded `Nat`
state with an LCG step; `random_state.permutation` on the rows selected by
one size group is modelled by a Fisher-Yates shuffle driven by that state.
The theorems about the permutation structure are proved for an arbitrary
shuffler that returns a permutation of its input, covering every possible
random outcome. -/

def lcgNext (s : Nat) : Nat := (1664525 * s + 1013904223) % 4294967296

/-- Draw a value in `[0, bound)` and the successor state. -/
def randBelow (s bound : Nat) : Nat × Nat :=
  let s' := lcgNext s
  (s' % bound, s')

/-- Fisher-Yates shuffle with explicit fuel (the fuel equals the list length
at every call, it only serves structural termination). -/
def shuffleAux : Nat → List (Nat × Nat) → Nat → List (Nat × Nat) × Nat
  | 0, l, s => (l, s)
  | _ + 1, [], s => ([], s)
  | fuel + 1, x :: rest, s =>
    let ks := randBelow s (rest.length + 1)
    let y := (x :: rest).getD ks.1 x
    let ys := (x :: rest).eraseIdx ks.1
    let out := shuffleAux fuel ys ks.2
    (y :: out.1, out.2)

/-- Model of `random_state.permutation` on a group's row list. -/
def shuffle (l : List (Nat × Nat)) (s : Nat) : List (Nat × Nat) × Nat :=
  shuffleAux l.length l s

/-- Lexicographic order used to model the sorted order of
`np.unique(tiles_sizes.reshape(-1, 2), axis=0)`. -/
def sizeLe (a b : Nat × Nat) : Bool :=
  a.1 < b.1 || (a.1 == b.1 && a.2 ≤ b.2)

def insertSorted (x : Nat × Nat) : List (Nat × Nat) → List (Nat × Nat)
  | [] => [x]
  | y :: ys => if sizeLe x y then x :: y :: ys else y :: insertSorted x ys

def sortSizes (l : List (Nat × Nat)) : List (Nat × Nat) := l.foldr insertSorted []

/-- The distinct tile sizes, in sorted order (`np.unique(..., axis=0)`). -/
def uniqueSizes (H W n m : Nat) : List (Nat × Nat) :=
  sortSizes (((cells n m).map (tileSize H W n m)).dedup)

/-- The cells of one size group, in row-major order (`eq_mat` gathering). -/
def groupCells (H W n m : Nat) (s : Nat × Nat) : List (Nat × Nat) :=
  (cells n m).filter (fun c => tileSize H W n m c = s)

/-- A shuffler: given a group's cell list and the generator state, returns
the permuted list and the successor state. -/
abbrev Shuffler := List (Nat × Nat) → Nat → List (Nat × Nat) × Nat

/-- The loop over `np.unique` sizes: each group of `new_index_matrix` rows is
replaced by a permutation of itself; the result is recorded as an association
list from cell to its assigned cell. -/
def assignAuxWith (shuf : Shuffler) (H W n m : Nat) :
    List (Nat × Nat) → Nat → List ((Nat × Nat) × (Nat × Nat)) × Nat
  | [], s => ([], s)
  | sz :: rest, s =>
    let g := groupCells H W n m sz
    let p := shuf g s
    let restOut := assignAuxWith shuf H W n m rest p.2
    (g.zip p.1 ++ restOut.1, restOut.2)

/-- The full assignment table after the loop over all distinct sizes. -/
def assignmentsWith (shuf : Shuffler) (H W n m seed : Nat) :
    List ((Nat × Nat) × (Nat × Nat)) :=
  (assignAuxWith shuf H W n m (uniqueSizes H W n m) seed).1

def lookupCell : List ((Nat × Nat) × (Nat × Nat)) → Nat × Nat → Option (Nat × Nat)
  | [], _ => none
  | ab :: rest, c => if ab.1 = c then some ab.2 else lookupCell rest c

/-- The value of `new_index_matrix` at cell `c` after the permutation loop. -/
def dstCellWith (shuf : Shuffler) (H W n m seed : Nat) (c : Nat × Nat) : Nat × Nat :=
  (lookupCell (assignmentsWith shuf H W n m seed) c).getD c

def dstCell (H W n m seed : Nat) (c : Nat × Nat) : Nat × Nat :=
  dstCellWith shuffle H W n m seed c

/-- One row of the `tiles` output array
`np.stack([curr_x, curr_y, old_x, old_y, shift_x, shift_y], axis=1)`. -/
structure TileRec where
  curr_x : Nat
  curr_y : Nat
  old_x : Nat
  old_y : Nat
  shift_x : Nat
  shift_y : Nat
deriving DecidableEq

/-- The `tiles` parameter of `RandomGridShuffleTorch`, one record per cell in
row-major order. -/
def tileRecordsWith (shuf : Shuffler) (H W n m seed : Nat) : List TileRec :=
  (cells n m).map fun c =>
    let d := dstCellWith shuf H W n m seed c
    { curr_x := splitPoint H n c.1
      curr_y := splitPoint W m c.2
      old_x := splitPoint H n d.1
      old_y := splitPoint W m d.2
      shift_x := rowH H n c.1
      shift_y := colW W m c.2 }

def tileRecords (H W n m seed : Nat) : List TileRec :=
  tileRecordsWith shuffle H W n m seed

/-! ### Permutation lemmas -/

theorem getD_cons_eraseIdx_perm (l : List (Nat × Nat)) (d : Nat × Nat) :
    ∀ k, k < l.length → (l.getD k d :: l.eraseIdx k).Perm l := by
  induction l with
  | nil => intro k hk; simp at hk
  | cons a t ih =>
      intro k hk
      cases k with
      | zero => simp
      | succ k =>
          have hk' : k < t.length := by simpa using hk
          have step : (t.getD k d :: a :: t.eraseIdx k).Perm (a :: t.getD k d :: t.eraseIdx k) :=
            List.Perm.swap a (t.getD k d) (t.eraseIdx k)
          have tail : (a :: t.getD k d :: t.eraseIdx k).Perm (a :: t) :=
            List.Perm.cons a (ih k hk')
          simpa using step.trans tail

theorem shuffleAux_perm :
    ∀ (fuel : Nat) (l : List (Nat × Nat)) (s : Nat), (shuffleAux fuel l s).1.Perm l := by
  intro fuel
  induction fuel with
  | zero => intro l s; simp [shuffleAux]
  | succ fuel ih =>
      intro l s
      cases l with
      | nil => simp [shuffleAux]
      | cons x rest =>
          simp only [shuffleAux]
          have hk : (randBelow s (rest.length + 1)).1 < (x :: rest).length := by
            simp only [randBelow, List.length_cons]
            exact Nat.mod_lt _ (Nat.succ_pos _)
          exact List.Perm.cons _ (ih _ _) |>.trans
            (getD_cons_eraseIdx_perm (x :: rest) x _ hk)

theorem shuffle_perm (l : List (Nat × Nat)) (s : Nat) : (shuffle l s).1.Perm l :=
  shuffleAux_perm l.length l s

/-! ### Association-list lemmas -/

/-- Position of a cell in a list (`0` and first match, as in row gathering). -/
def idxIn (c : Nat × Nat) : List (Nat × Nat) → Nat
  | [] => 0
  | a :: t => if a = c then 0 else idxIn c t + 1

theorem idxIn_lt_length {c : Nat × Nat} :
    ∀ {l : List (Nat × Nat)}, c ∈ l → idxIn c l < l.length := by
  intro l
  induction l with
  | nil => intro h; simp at h
  | cons a t ih =>
      intro h
      by_cases hac : a = c
      · simp [idxIn, hac]
      · have hct : c ∈ t := by
          rcases List.mem_cons.mp h with h1 | h1
          · exact absurd h1.symm hac
          · exact h1
        simp only [idxIn, if_neg hac, List.length_cons]
        exact Nat.succ_lt_succ (ih hct)

theorem lookupCell_append_left {A : List ((Nat × Nat) × (Nat × Nat))}
    {c : Nat × Nat} {b : Nat × Nat} (h : lookupCell A c = some b)
    (B : List ((Nat × Nat) × (Nat × Nat))) :
    lookupCell (A ++ B) c = some b := by
  induction A with
  | nil => simp [lookupCell] at h
  | cons ab rest ih =>
      by_cases hc : ab.1 = c
      · simp only [lookupCell, if_pos hc] at h
        simpa [lookupCell, hc] using h
      · simp only [lookupCell, if_neg hc] at h
        simpa [lookupCell, hc] using ih h

theorem lookupCell_append_right {A : List ((Nat × Nat) × (Nat × Nat))}
    {c : Nat × Nat} (h : ∀ ab ∈ A, ab.1 ≠ c)
    (B : List ((Nat × Nat) × (Nat × Nat))) :
    lookupCell (A ++ B) c = lookupCell B c := by
  induction A with
  | nil => simp
  | cons ab rest ih =>
      have h1 : ab.1 ≠ c := h ab (List.mem_cons_self ab rest)
      simp only [List.cons_append, lookupCell, if_neg h1]
      exact ih fun x hx => h x (List.mem_cons_of_mem ab hx)

theorem lookupCell_zip {g g' : List (Nat × Nat)} {c : Nat × Nat} :
    c ∈ g → g'.length = g.length →
    lookupCell (g.zip g') c = some (g'.getD (idxIn c g) c) := by
  induction g generalizing g' with
  | nil => intro h; simp at h
  | cons a t ih =>
      intro hc hlen
      cases g' with
      | nil => simp at hlen
      | cons b t' =>
          by_cases hac : a = c
          · simp [List.zip_cons_cons, lookupCell, idxIn, hac]
          · have hct : c ∈ t := by
              rcases List.mem_cons.mp hc with h1 | h1
              · exact absurd h1.symm hac
              · exact h1
            have hlen' : t'.length = t.length := by simpa using hlen
            simp only [List.zip_cons_cons, lookupCell, if_neg hac, idxIn,
              List.getD_cons_succ]
            exact ih hct hlen'

theorem lookupCell_mem_pair :
    ∀ (L : List ((Nat × Nat) × (Nat × Nat))) (c b : Nat × Nat),
      lookupCell L c = some b → (c, b) ∈ L := by
  intro L
  induction L with
  | nil => intro c b h; simp [lookupCell] at h
  | cons ab rest ih =>
      intro c b h
      by_cases hc : ab.1 = c
      · simp only [lookupCell, if_pos hc, Option.some.injEq] at h
        have hab : ab = (c, b) := by rw [← hc, ← h]
        rw [← hab]
        exact List.mem_cons_self ab rest
      · simp only [lookupCell, if_neg hc] at h
        exact List.mem_cons_of_mem ab (ih c b h)

theorem map_getD_idxIn :
    ∀ (g g' : List (Nat × Nat)), g.Nodup → g'.length = g.length →
      (g.map fun c => g'.getD (idxIn c g) c) = g' := by
  intro g
  induction g with
  | nil =>
      intro g' _ hlen
      simp at hlen
      simp [hlen]
  | cons a t ih =>
      intro g' hnd hlen
      cases g' with
      | nil => simp at hlen
      | cons b t' =>
          have hnotmem : a ∉ t := (List.nodup_cons.mp hnd).1
          have hndt : t.Nodup := (List.nodup_cons.mp hnd).2
          have hlen' : t'.length = t.length := by simpa using hlen
          simp only [List.map_cons, List.cons.injEq]
          refine ⟨by simp [idxIn], ?_⟩
          have hcongr : (t.map fun c => (b :: t').getD (idxIn c (a :: t)) c)
              = t.map fun c => t'.getD (idxIn c t) c := by
            apply List.map_congr_left
            intro c hc
            have hac : a ≠ c := fun h => hnotmem (h ▸ hc)
            simp [idxIn, if_neg hac]
          rw [hcongr]
          exact ih t' hndt hlen'

/-! ### Size groups -/

theorem cells_nodup (n m : Nat) : (cells n m).Nodup :=
  (List.nodup_range n).product (List.nodup_range m)

theorem mem_groupCells {H W n m : Nat} {s c : Nat × Nat} :
    c ∈ groupCells H W n m s ↔ c ∈ cells n m ∧ tileSize H W n m c = s := by
  simp [groupCells, List.mem_filter]

theorem groupCells_nodup (H W n m : Nat) (s : Nat × Nat) :
    (groupCells H W n m s).Nodup :=
  (cells_nodup n m).filter _

theorem insertSorted_perm (x : Nat × Nat) :
    ∀ l : List (Nat × Nat), (insertSorted x l).Perm (x :: l) := by
  intro l
  induction l with
  | nil => simp [insertSorted]
  | cons y ys ih =>
      simp only [insertSorted]
      split_ifs
      · exact List.Perm.refl _
      · exact (List.Perm.cons y ih).trans (List.Perm.swap x y ys)

theorem sortSizes_perm (l : List (Nat × Nat)) : (sortSizes l).Perm l := by
  induction l with
  | nil => simp [sortSizes]
  | cons a t ih =>
      have h : sortSizes (a :: t) = insertSorted a (sortSizes t) := rfl
      rw [h]
      exact (insertSorted_perm a (sortSizes t)).trans (List.Perm.cons a ih)

theorem uniqueSizes_nodup (H W n m : Nat) : (uniqueSizes H W n m).Nodup :=
  ((sortSizes_perm _).nodup_iff).mpr (List.nodup_dedup _)

theorem tileSize_mem_uniqueSizes {H W n m : Nat} {c : Nat × Nat}
    (hc : c ∈ cells n m) : tileSize H W n m c ∈ uniqueSizes H W n m := by
  have h1 : tileSize H W n m c ∈ ((cells n m).map (tileSize H W n m)).dedup := by
    rw [List.mem_dedup]
    exact List.mem_map_of_mem _ hc
  exact ((sortSizes_perm _).mem_iff).mpr h1

/-! ### The assignment table -/

theorem assignAux_lookup (shuf : Shuffler)
    (hshuf : ∀ l s, (shuf l s).1.Perm l) (H W n m : Nat) :
    ∀ (szs : List (Nat × Nat)) (s0 : Nat), szs.Nodup →
      ∀ sz ∈ szs, ∃ g' : List (Nat × Nat),
        g'.Perm (groupCells H W n m sz) ∧
        ∀ c ∈ groupCells H W n m sz,
          lookupCell (assignAuxWith shuf H W n m szs s0).1 c
            = some (g'.getD (idxIn c (groupCells H W n m sz)) c) := by
  intro szs
  induction szs with
  | nil => intro s0 _ sz hsz; simp at hsz
  | cons sz0 rest ih =>
      intro s0 hnd sz hsz
      have hnd0 : sz0 ∉ rest := (List.nodup_cons.mp hnd).1
      have hndr : rest.Nodup := (List.nodup_cons.mp hnd).2
      rcases List.mem_cons.mp hsz with heq | hmem
      · subst heq
        refine ⟨(shuf (groupCells H W n m sz) s0).1, hshuf _ _, ?_⟩
        intro c hc
        have hlen : (shuf (groupCells H W n m sz) s0).1.length
            = (groupCells H W n m sz).length := (hshuf _ _).length_eq
        have hin := lookupCell_zip hc hlen
        simp only [assignAuxWith]
        exact lookupCell_append_left hin _
      · obtain ⟨g', hperm, hlook⟩ := ih (shuf (groupCells H W n m sz0) s0).2 hndr sz hmem
        refine ⟨g', hperm, ?_⟩
        intro c hc
        have hne : sz ≠ sz0 := fun h => hnd0 (h ▸ hmem)
        have hnot : ∀ ab ∈ (groupCells H W n m sz0).zip
            (shuf (groupCells H W n m sz0) s0).1, ab.1 ≠ c := by
          intro ab hab hcc
          have h1 : ab.1 ∈ groupCells H W n m sz0 := (List.of_mem_zip hab).1
          rw [hcc] at h1
          have h2 := (mem_groupCells.mp h1).2
          have h3 := (mem_groupCells.mp hc).2
          exact hne (by rw [← h3, h2])
        simp only [assignAuxWith]
        rw [lookupCell_append_right hnot]
        exact hlook c hc

/-- For each size present in the grid there is one drawn permutation `g'` of
its group, and the assignment of every cell of the group reads off `g'` at
the cell's gather position. -/
theorem dst_group_spec (shuf : Shuffler) (hshuf : ∀ l s, (shuf l s).1.Perm l)
    (H W n m seed : Nat) {s : Nat × Nat} (hs : s ∈ uniqueSizes H W n m) :
    ∃ g' : List (Nat × Nat), g'.Perm (groupCells H W n m s) ∧
      ∀ c ∈ groupCells H W n m s,
        dstCellWith shuf H W n m seed c
          = g'.getD (idxIn c (groupCells H W n m s)) c := by
  obtain ⟨g', hp, hl⟩ := assignAux_lookup shuf hshuf H W n m
    (uniqueSizes H W n m) seed (uniqueSizes_nodup H W n m) s hs
  refine ⟨g', hp, fun c hc => ?_⟩
  unfold dstCellWith assignmentsWith
  rw [hl c hc]
  rfl

/-- The assigned destination of a cell stays inside the cell's size group. -/
theorem dst_mem_group (shuf : Shuffler) (hshuf : ∀ l s, (shuf l s).1.Perm l)
    (H W n m seed : Nat) {c : Nat × Nat} (hc : c ∈ cells n m) :
    dstCellWith shuf H W n m seed c
      ∈ groupCells H W n m (tileSize H W n m c) := by
  obtain ⟨g', hp, hl⟩ := dst_group_spec shuf hshuf H W n m seed
    (tileSize_mem_uniqueSizes hc)
  have hcg : c ∈ groupCells H W n m (tileSize H W n m c) :=
    mem_groupCells.mpr ⟨hc, rfl⟩
  rw [hl c hcg]
  have hidx : idxIn c (groupCells H W n m (tileSize H W n m c))
      < g'.length := by
    rw [hp.length_eq]
    exact idxIn_lt_length hcg
  rw [List.getD_eq_getElem g' c hidx]
  exact hp.mem_iff.mp (List.getElem_mem hidx)

/-- Within each size group the assignment enumerates exactly one permutation
of the group. -/
theorem dst_group_perm (shuf : Shuffler) (hshuf : ∀ l s, (shuf l s).1.Perm l)
    (H W n m seed : Nat) (s : Nat × Nat) :
    ((groupCells H W n m s).map (dstCellWith shuf H W n m seed)).Perm
      (groupCells H W n m s) := by
  by_cases hempty : groupCells H W n m s = []
  · rw [hempty]; simp
  · obtain ⟨c0, hc0⟩ := List.exists_mem_of_ne_nil _ hempty
    obtain ⟨hc0cells, hc0size⟩ := mem_groupCells.mp hc0
    have hs : s ∈ uniqueSizes H W n m := by
      rw [← hc0size]
      exact tileSize_mem_uniqueSizes hc0cells
    obtain ⟨g', hp, hl⟩ := dst_group_spec shuf hshuf H W n m seed hs
    have hmapeq : (groupCells H W n m s).map (dstCellWith shuf H W n m seed)
        = (groupCells H W n m s).map
          (fun c => g'.getD (idxIn c (groupCells H W n m s)) c) :=
      List.map_congr_left hl
    rw [hmapeq, map_getD_idxIn _ _ (groupCells_nodup H W n m s) hp.length_eq]
    exact hp

/-- A size group with exactly one tile maps that tile to itself. -/
theorem dst_singleton (shuf : Shuffler) (hshuf : ∀ l s, (shuf l s).1.Perm l)
    (H W n m seed : Nat) {s c : Nat × Nat}
    (h : groupCells H W n m s = [c]) :
    dstCellWith shuf H W n m seed c = c := by
  have hc : c ∈ groupCells H W n m s := by rw [h]; exact List.mem_singleton_self c
  obtain ⟨hccells, hcsize⟩ := mem_groupCells.mp hc
  have hs : s ∈ uniqueSizes H W n m := by
    rw [← hcsize]
    exact tileSize_mem_uniqueSizes hccells
  obtain ⟨g', hp, hl⟩ := dst_group_spec shuf hshuf H W n m seed hs
  rw [h] at hp hl
  have hg' : g' = [c] := List.perm_singleton.mp hp
  rw [hl c (List.mem_singleton_self c), hg']
  simp [idxIn]

/-- C2: for every grid and every random outcome (any shuffler returning a
permutation of its input, in particular the seeded one), the tile mapping is
size-preserving: every cell's assigned cell has the same `(height, width)`
size signature, the assignments within each size group form a permutation of
that group, and a size group with exactly one tile maps it to itself. -/
theorem gridShuffle_size_preserving (shuf : Shuffler)
    (hshuf : ∀ l s, (shuf l s).1.Perm l) (H W n m seed : Nat)
    (_hn : 0 < n) (_hm : 0 < m) :
    (∀ c ∈ cells n m,
      tileSize H W n m (dstCellWith shuf H W n m seed c) = tileSize H W n m c) ∧
    (∀ s : Nat × Nat,
      ((groupCells H W n m s).map (dstCellWith shuf H W n m seed)).Perm
        (groupCells H W n m s)) ∧
    (∀ s c : Nat × Nat, groupCells H W n m s = [c] →
      dstCellWith shuf H W n m seed c = c) := by
  refine ⟨?_, fun s => dst_group_perm shuf hshuf H W n m seed s,
    fun s c h => dst_singleton shuf hshuf H W n m seed h⟩
  intro c hc
  exact (mem_groupCells.mp (dst_mem_group shuf hshuf H W n m seed hc)).2

/-- C2 witness: the seeded shuffler on a `4 × 4` image with a `2 × 2` grid. -/
theorem gridShuffle_size_preserving_witness :
    (∀ c ∈ cells 2 2,
      tileSize 4 4 2 2 (dstCellWith shuffle 4 4 2 2 9 c) = tileSize 4 4 2 2 c) ∧
    (∀ s : Nat × Nat,
      ((groupCells 4 4 2 2 s).map (dstCellWith shuffle 4 4 2 2 9)).Perm
        (groupCells 4 4 2 2 s)) ∧
    (∀ s c : Nat × Nat, groupCells 4 4 2 2 s = [c] →
      dstCellWith shuffle 4 4 2 2 9 c = c) :=
  gridShuffle_size_preserving shuffle shuffle_perm 4 4 2 2 9
    (by decide) (by decide)

/-- C3: the tile-permutation step is deterministic.  In this embedding the
pseudo-random generator of `np.random.RandomState(seed)` is an explicit state
threaded from the seed, so the whole parameter computation is a pure function
of `(grid, seed)`: two calls on identical `(H, W, n, m, seed)` inputs return
identical tile mappings. -/
theorem gridShuffle_deterministic (H W n m seed1 seed2 : Nat)
    (h : seed1 = seed2) :
    tileRecords H W n m seed1 = tileRecords H W n m seed2 := by
  rw [h]

/-- C3 witness: two calls with seed `5` on a `6 × 8` image, `3 × 2` grid. -/
theorem gridShuffle_deterministic_witness :
    tileRecords 6 8 3 2 5 = tileRecords 6 8 3 2 5 :=
  gridShuffle_deterministic 6 8 3 2 5 5 rfl

/-- C8: the permutation step emits exactly one record per tile, whose fields
are: the source tile's top-left coordinates (`curr_x`, `curr_y`), the
assigned tile's top-left coordinates (`old_x`, `old_y`), and the tile's
height and width (`shift_x`, `shift_y`); the assigned tile is drawn from a
permutation of the tile's size group, and the pixel offset needed to
relocate the content is the assigned tile's top-left minus the source
tile's top-left, which is exactly the difference of the recorded coordinate
fields. -/
theorem gridShuffle_record_fields (shuf : Shuffler)
    (hshuf : ∀ l s, (shuf l s).1.Perm l) (H W n m seed : Nat)
    (_hn : 0 < n) (_hm : 0 < m) :
    (tileRecordsWith shuf H W n m seed).length = n * m ∧
    (∀ c ∈ cells n m,
      ∃ r ∈ tileRecordsWith shuf H W n m seed,
        r.curr_x = splitPoint H n c.1 ∧ r.curr_y = splitPoint W m c.2 ∧
        r.shift_x = rowH H n c.1 ∧ r.shift_y = colW W m c.2 ∧
        ∃ d ∈ groupCells H W n m (tileSize H W n m c),
          d = dstCellWith shuf H W n m seed c ∧
          r.old_x = splitPoint H n d.1 ∧ r.old_y = splitPoint W m d.2 ∧
          (r.old_x : Int) - (r.curr_x : Int)
            = (splitPoint H n d.1 : Int) - (splitPoint H n c.1 : Int) ∧
          (r.old_y : Int) - (r.curr_y : Int)
            = (splitPoint W m d.2 : Int) - (splitPoint W m c.2 : Int)) ∧
    (∀ s : Nat × Nat,
      ((groupCells H W n m s).map (dstCellWith shuf H W n m seed)).Perm
        (groupCells H W n m s)) := by
  refine ⟨?_, ?_, fun s => dst_group_perm shuf hshuf H W n m seed s⟩
  · rw [tileRecordsWith, List.length_map, cells, List.length_product,
      List.length_range, List.length_range]
  · intro c hc
    refine ⟨_, List.mem_map_of_mem _ hc, rfl, rfl, rfl, rfl,
      dstCellWith shuf H W n m seed c,
      dst_mem_group shuf hshuf H W n m seed hc, rfl, rfl, rfl, rfl, rfl⟩

/-- C8 witness: the seeded shuffler on a `10 × 10` image with a `2 × 3`
grid. -/
theorem gridShuffle_record_fields_witness :
    (tileRecordsWith shuffle 10 10 2 3 1).length = 2 * 3 ∧
    (∀ c ∈ cells 2 3,
      ∃ r ∈ tileRecordsWith shuffle 10 10 2 3 1,
        r.curr_x = splitPoint 10 2 c.1 ∧ r.curr_y = splitPoint 10 3 c.2 ∧
        r.shift_x = rowH 10 2 c.1 ∧ r.shift_y = colW 10 3 c.2 ∧
        ∃ d ∈ groupCells 10 10 2 3 (tileSize 10 10 2 3 c),
          d = dstCellWith shuffle 10 10 2 3 1 c ∧
          r.old_x = splitPoint 10 2 d.1 ∧ r.old_y = splitPoint 10 3 d.2 ∧
          (r.old_x : Int) - (r.curr_x : Int)
            = (splitPoint 10 2 d.1 : Int) - (splitPoint 10 2 c.1 : Int) ∧
          (r.old_y : Int) - (r.curr_y : Int)
            = (splitPoint 10 3 d.2 : Int) - (splitPoint 10 3 c.2 : Int)) ∧
    (∀ s : Nat × Nat,
      ((groupCells 10 10 2 3 s).map (dstCellWith shuffle 10 10 2 3 1)).Perm
        (groupCells 10 10 2 3 s)) :=
  gridShuffle_record_fields shuffle shuffle_perm 10 10 2 3 1
    (by decide) (by decide)

/-! ### CropNonEmptyMaskIfExistsTorch.get_params_dependent_on_targets

A rank-2 mask tensor is modelled as an index function `Nat → Nat → Nat`
together with its dimensions.  `torch.nonzero` lists the coordinates of
non-zero entries in row-major order; `random.choice` is modelled by an
arbitrary index `pick` into that list, and the two `random.randint` draws by
arbitrary bounded inputs `dy`, `dx` (resp. `rndY`, `rndX` in the empty-mask
branch). -/

/-- `torch.where(mask == v, zeros, mask)` for each ignored value. -/
def applyIgnoreValues (ignore : List Nat) (mask : Nat → Nat → Nat) :
    Nat → Nat → Nat :=
  fun i j => if mask i j ∈ ignore then 0 else mask i j

/-- `torch.nonzero(mask)`: row-major coordinates of non-zero entries. -/
def nonzeroCoords (h w : Nat) (mask : Nat → Nat → Nat) : List (Nat × Nat) :=
  ((List.range h) ×ˢ (List.range w)).filter fun c => mask c.1 c.2 ≠ 0

/-- `torch.clamp(v, lo, hi)`. -/
def clampInt (v li hi : Int) : Int := min (max v li) hi

/-- The returned crop rectangle. -/
structure CropParams where
  x_min : Int
  x_max : Int
  y_min : Int
  y_max : Int
deriving DecidableEq

/-- `CropNonEmptyMaskIfExistsTorch.get_params_dependent_on_targets` on a
rank-2 mask. -/
def cropNonEmptyGetParams (maskH maskW cropH cropW : Nat) (ignore : List Nat)
    (mask : Nat → Nat → Nat) (pick dy dx rndY rndX : Nat) :
    Except String CropParams :=
  let fmask := applyIgnoreValues ignore mask
  if cropH > maskH ∨ cropW > maskW then
    .error "Crop size is larger than image"
  else
    let nz := nonzeroCoords maskH maskW fmask
    if nz = [] then
      .ok { x_min := (rndX : Int), x_max := (rndX : Int) + cropW,
            y_min := (rndY : Int), y_max := (rndY : Int) + cropH }
    else
      let yx := nz.getD (pick % nz.length) (0, 0)
      let x0 := clampInt ((yx.2 : Int) - (dx : Int)) 0 ((maskW : Int) - (cropW : Int))
      let y0 := clampInt ((yx.1 : Int) - (dy : Int)) 0 ((maskH : Int) - (cropH : Int))
      .ok { x_min := x0, x_max := x0 + cropW, y_min := y0, y_max := y0 + cropH }

/-- The non-zero pixel chosen by `random.choice(non_zero_yx)`, the choice
index being modelled by `pick` reduced modulo the number of candidates. -/
def sampledPixel (maskH maskW : Nat) (ignore : List Nat)
    (mask : Nat → Nat → Nat) (pick : Nat) : Nat × Nat :=
  let nz := nonzeroCoords maskH maskW (applyIgnoreValues ignore mask)
  nz.getD (pick % nz.length) (0, 0)

theorem nonzeroCoords_bounds {h w : Nat} {mask : Nat → Nat → Nat}
    {c : Nat × Nat} (hc : c ∈ nonzeroCoords h w mask) :
    c.1 < h ∧ c.2 < w ∧ mask c.1 c.2 ≠ 0 := by
  obtain ⟨hmem, hval⟩ := List.mem_filter.mp hc
  obtain ⟨c1, c2⟩ := c
  obtain ⟨h1, h2⟩ := List.mem_product.mp hmem
  refine ⟨List.mem_range.mp h1, List.mem_range.mp h2, ?_⟩
  simpa using hval

/-- The clamped backward offset keeps the pixel inside the crop along one
axis while the crop stays inside the image. -/
theorem clamp_axis_bounds (yv maskL cropL off : Nat)
    (h1 : cropL ≤ maskL) (h2 : yv < maskL) (h3 : off ≤ cropL - 1)
    (h4 : 0 < cropL) :
    clampInt ((yv : Int) - (off : Int)) 0 ((maskL : Int) - (cropL : Int))
        ≤ (yv : Int) ∧
    (yv : Int) < clampInt ((yv : Int) - (off : Int)) 0
        ((maskL : Int) - (cropL : Int)) + (cropL : Int) ∧
    0 ≤ clampInt ((yv : Int) - (off : Int)) 0 ((maskL : Int) - (cropL : Int)) ∧
    clampInt ((yv : Int) - (off : Int)) 0 ((maskL : Int) - (cropL : Int))
        + (cropL : Int) ≤ (maskL : Int) := by
  simp only [clampInt]
  omega

/-- C5: when the (ignore-filtered) mask has a non-zero pixel and the crop
fits inside the mask, the returned rectangle has width `cropW` and height
`cropH`, contains the sampled non-zero pixel, and lies entirely within the
image bounds. -/
theorem cropNonEmpty_contains_pixel (maskH maskW cropH cropW : Nat)
    (ignore : List Nat) (mask : Nat → Nat → Nat) (pick dy dx rndY rndX : Nat)
    (hch : cropH ≤ maskH) (hcw : cropW ≤ maskW)
    (hdy : dy ≤ cropH - 1) (hdx : dx ≤ cropW - 1)
    (hc0 : 0 < cropH) (hw0 : 0 < cropW)
    (hnz : nonzeroCoords maskH maskW (applyIgnoreValues ignore mask) ≠ []) :
    ∃ p : CropParams,
      cropNonEmptyGetParams maskH maskW cropH cropW ignore mask pick dy dx rndY rndX
        = .ok p ∧
      p.x_max = p.x_min + (cropW : Int) ∧ p.y_max = p.y_min + (cropH : Int) ∧
      p.x_min ≤ ((sampledPixel maskH maskW ignore mask pick).2 : Int) ∧
      ((sampledPixel maskH maskW ignore mask pick).2 : Int) < p.x_max ∧
      p.y_min ≤ ((sampledPixel maskH maskW ignore mask pick).1 : Int) ∧
      ((sampledPixel maskH maskW ignore mask pick).1 : Int) < p.y_max ∧
      0 ≤ p.x_min ∧ p.x_max ≤ (maskW : Int) ∧
      0 ≤ p.y_min ∧ p.y_max ≤ (maskH : Int) := by
  have hfits : ¬ (cropH > maskH ∨ cropW > maskW) := by omega
  have hlen : 0 < (nonzeroCoords maskH maskW (applyIgnoreValues ignore mask)).length :=
    List.length_pos.mpr hnz
  have hmem : sampledPixel maskH maskW ignore mask pick
      ∈ nonzeroCoords maskH maskW (applyIgnoreValues ignore mask) := by
    rw [sampledPixel]
    rw [List.getD_eq_getElem _ (0, 0) (Nat.mod_lt pick hlen)]
    exact List.getElem_mem _
  obtain ⟨hy, hx, _⟩ := nonzeroCoords_bounds hmem
  obtain ⟨hx1, hx2, hx3, hx4⟩ := clamp_axis_bounds
    (sampledPixel maskH maskW ignore mask pick).2 maskW cropW dx hcw hx hdx hw0
  obtain ⟨hy1, hy2, hy3, hy4⟩ := clamp_axis_bounds
    (sampledPixel maskH maskW ignore mask pick).1 maskH cropH dy hch hy hdy hc0
  refine ⟨⟨clampInt (((sampledPixel maskH maskW ignore mask pick).2 : Int)
        - (dx : Int)) 0 ((maskW : Int) - (cropW : Int)),
      clampInt (((sampledPixel maskH maskW ignore mask pick).2 : Int)
        - (dx : Int)) 0 ((maskW : Int) - (cropW : Int)) + (cropW : Int),
      clampInt (((sampledPixel maskH maskW ignore mask pick).1 : Int)
        - (dy : Int)) 0 ((maskH : Int) - (cropH : Int)),
      clampInt (((sampledPixel maskH maskW ignore mask pick).1 : Int)
        - (dy : Int)) 0 ((maskH : Int) - (cropH : Int)) + (cropH : Int)⟩,
    ?_, rfl, rfl, hx1, hx2, hy1, hy2, hx3, hx4, hy3, hy4⟩
  simp only [cropNonEmptyGetParams, sampledPixel]
  rw [if_neg hfits, if_neg hnz]

/-- C5 witness: a `5 × 6` mask whose only non-zero pixel is `(2, 3)` with a
`3 × 2` crop. -/
theorem cropNonEmpty_contains_pixel_witness :
    ∃ p : CropParams,
      cropNonEmptyGetParams 5 6 3 2 [7]
          (fun i j => if i = 2 ∧ j = 3 then 1 else 0) 0 1 1 0 0
        = .ok p ∧
      p.x_max = p.x_min + (2 : Int) ∧ p.y_max = p.y_min + (3 : Int) ∧
      p.x_min ≤ ((sampledPixel 5 6 [7]
          (fun i j => if i = 2 ∧ j = 3 then 1 else 0) 0).2 : Int) ∧
      ((sampledPixel 5 6 [7]
          (fun i j => if i = 2 ∧ j = 3 then 1 else 0) 0).2 : Int) < p.x_max ∧
      p.y_min ≤ ((sampledPixel 5 6 [7]
          (fun i j => if i = 2 ∧ j = 3 then 1 else 0) 0).1 : Int) ∧
      ((sampledPixel 5 6 [7]
          (fun i j => if i = 2 ∧ j = 3 then 1 else 0) 0).1 : Int) < p.y_max ∧
      0 ≤ p.x_min ∧ p.x_max ≤ (6 : Int) ∧
      0 ≤ p.y_min ∧ p.y_max ≤ (5 : Int) :=
  cropNonEmpty_contains_pixel 5 6 3 2 [7]
    (fun i j => if i = 2 ∧ j = 3 then 1 else 0) 0 1 1 0 0
    (by decide) (by decide) (by decide) (by decide) (by decide) (by decide)
    (by decide)

/-! ### Error conditions (C6) -/

/-- `RandomGridShuffleTorch.get_params_dependent_on_targets` with its two
validity checks; grid dimensions are (possibly negative) integers. -/
def gridShuffleGetParams (H W : Nat) (n m : Int) (seed : Nat) :
    Except String (List TileRec) :=
  if n ≤ 0 ∨ m ≤ 0 then
    .error "Grid's values must be positive."
  else if n > (H : Int) / 2 ∨ m > (W : Int) / 2 then
    .error "Incorrect size cell of grid. Just shuffle pixels of image"
  else
    .ok (tileRecords H W n.toNat m.toNat seed)

/-- C6: parameter sampling fails exactly on an invalid configuration:
`RandomGridShuffleTorch` errors iff `n ≤ 0` or `m ≤ 0` or `n > H / 2` or
`m > W / 2`; `CropNonEmptyMaskIfExistsTorch` errors iff the configured crop
height exceeds the mask height or the crop width exceeds the mask width.
In both cases the error is the returned value, so no parameters are
produced. -/
theorem invalid_configuration_iff (H W : Nat) (n m : Int) (seed : Nat)
    (maskH maskW cropH cropW : Nat) (ignore : List Nat)
    (mask : Nat → Nat → Nat) (pick dy dx rndY rndX : Nat) :
    ((∃ e, gridShuffleGetParams H W n m seed = .error e) ↔
      n ≤ 0 ∨ m ≤ 0 ∨ n > (H : Int) / 2 ∨ m > (W : Int) / 2) ∧
    ((∃ e, cropNonEmptyGetParams maskH maskW cropH cropW ignore mask
        pick dy dx rndY rndX = .error e) ↔
      cropH > maskH ∨ cropW > maskW) := by
  constructor
  · rw [gridShuffleGetParams]
    split_ifs with h1 h2
    · simp only [Except.error.injEq, exists_eq']
      constructor
      · intro _; omega
      · intro _; trivial
    · simp only [Except.error.injEq, exists_eq']
      constructor
      · intro _; omega
      · intro _; trivial
    · constructor
      · rintro ⟨e, he⟩; exact absurd he (by simp)
      · intro h; omega
  · simp only [cropNonEmptyGetParams]
    by_cases h1 : cropH > maskH ∨ cropW > maskW
    · rw [if_pos h1]
      simp only [Except.error.injEq, exists_eq']
      exact ⟨fun _ => h1, fun _ => trivial⟩
    · rw [if_neg h1]
      constructor
      · rintro ⟨e, he⟩
        by_cases h2 : nonzeroCoords maskH maskW (applyIgnoreValues ignore mask) = []
        · rw [if_pos h2] at he
          exact absurd he (by simp)
        · rw [if_neg h2] at he
          exact absurd he (by simp)
      · intro h; omega

/-! ### RandomResizedCropTorch fallback (lines 254-272)

Python floats are modelled by rationals; Python `round` is half-to-even
(banker's) rounding; the literal `1e-10` is the rational `1 / 10^10`. -/

/-- Python `round` on a rational: nearest integer, ties to even. -/
def roundHalfEven (q : ℚ) : ℤ :=
  if q - (⌊q⌋ : ℚ) < (1 : ℚ) / 2 then ⌊q⌋
  else if (1 : ℚ) / 2 < q - (⌊q⌋ : ℚ) then ⌊q⌋ + 1
  else if ⌊q⌋ % 2 = 0 then ⌊q⌋ else ⌊q⌋ + 1

/-- The `1e-10` guard added to the slack denominator. -/
def epsTen : ℚ := 1 / 10000000000

structure RRCParams where
  crop_height : Int
  crop_width : Int
  h_start : ℚ
  w_start : ℚ
deriving DecidableEq

/-- The central-crop fallback of
`RandomResizedCropTorch.get_params_dependent_on_targets`, reached when all
ten sampling attempts fail. -/
def rrcFallback (height width : Nat) (ratio0 ratio1 : ℚ) : RRCParams :=
  let in_ratio : ℚ := (width : ℚ) / (height : ℚ)
  let wh : Int × Int :=
    if in_ratio < min ratio0 ratio1 then
      ((width : Int), roundHalfEven ((width : ℚ) / min ratio0 ratio1))
    else if in_ratio > max ratio0 ratio1 then
      (roundHalfEven ((height : ℚ) * max ratio0 ratio1), (height : Int))
    else ((width : Int), (height : Int))
  let i : Int := ((height : Int) - wh.2) / 2
  let j : Int := ((width : Int) - wh.1) / 2
  { crop_height := wh.2
    crop_width := wh.1
    h_start := (i : ℚ) / ((height : ℚ) - (wh.2 : ℚ) + epsTen)
    w_start := (j : ℚ) / ((width : ℚ) - (wh.1 : ℚ) + epsTen) }

/-- C7: when all sampling attempts fail, the fallback crop clamps the image
aspect ratio into `[ratio0, ratio1]` — `w = width`, `h = round(width/ratio0)`
if the image is too tall, `h = height`, `w = round(height*ratio1)` if too
wide, the whole image otherwise — and the returned start fractions encode
the centered offsets `i = (height - h) / 2`, `j = (width - w) / 2` divided
by the remaining slack plus `1e-10`. -/
theorem rrcFallback_centered_clamped (height width : Nat) (ratio0 ratio1 : ℚ)
    (_hh : 0 < height) (_hw : 0 < width) (_hr0 : 0 < ratio0)
    (hr01 : ratio0 ≤ ratio1) :
    ((width : ℚ) / (height : ℚ) < ratio0 →
      (rrcFallback height width ratio0 ratio1).crop_width = (width : Int) ∧
      (rrcFallback height width ratio0 ratio1).crop_height
        = roundHalfEven ((width : ℚ) / ratio0)) ∧
    (ratio1 < (width : ℚ) / (height : ℚ) →
      (rrcFallback height width ratio0 ratio1).crop_height = (height : Int) ∧
      (rrcFallback height width ratio0 ratio1).crop_width
        = roundHalfEven ((height : ℚ) * ratio1)) ∧
    (ratio0 ≤ (width : ℚ) / (height : ℚ) →
      (width : ℚ) / (height : ℚ) ≤ ratio1 →
      (rrcFallback height width ratio0 ratio1).crop_width = (width : Int) ∧
      (rrcFallback height width ratio0 ratio1).crop_height = (height : Int)) ∧
    (rrcFallback height width ratio0 ratio1).h_start
      = ((((height : Int) - (rrcFallback height width ratio0 ratio1).crop_height) / 2 : Int) : ℚ)
        / ((height : ℚ) - ((rrcFallback height width ratio0 ratio1).crop_height : ℚ) + epsTen) ∧
    (rrcFallback height width ratio0 ratio1).w_start
      = ((((width : Int) - (rrcFallback height width ratio0 ratio1).crop_width) / 2 : Int) : ℚ)
        / ((width : ℚ) - ((rrcFallback height width ratio0 ratio1).crop_width : ℚ) + epsTen) := by
  simp only [rrcFallback, min_eq_left hr01, max_eq_right hr01]
  split_ifs with h1 h2
  · exact ⟨fun _ => ⟨rfl, rfl⟩, fun hc => absurd hc (by linarith),
      fun hc _ => absurd hc (by linarith), by trivial, by trivial⟩
  · exact ⟨fun hc => absurd hc (by linarith), fun _ => ⟨rfl, rfl⟩,
      fun _ hc => absurd hc (by linarith), by trivial, by trivial⟩
  · exact ⟨fun hc => absurd hc (by linarith), fun hc => absurd hc (by linarith),
      fun _ _ => ⟨rfl, rfl⟩, by trivial, by trivial⟩

/-- C7 witness: `ratio = (2, 2)` on a square `100 × 100` image (the example
that forces the fallback). -/
theorem rrcFallback_centered_clamped_witness :
    (((100 : Nat) : ℚ) / ((100 : Nat) : ℚ) < 2 →
      (rrcFallback 100 100 2 2).crop_width = ((100 : Nat) : Int) ∧
      (rrcFallback 100 100 2 2).crop_height
        = roundHalfEven (((100 : Nat) : ℚ) / 2)) ∧
    ((2 : ℚ) < ((100 : Nat) : ℚ) / ((100 : Nat) : ℚ) →
      (rrcFallback 100 100 2 2).crop_height = ((100 : Nat) : Int) ∧
      (rrcFallback 100 100 2 2).crop_width
        = roundHalfEven (((100 : Nat) : ℚ) * 2)) ∧
    ((2 : ℚ) ≤ ((100 : Nat) : ℚ) / ((100 : Nat) : ℚ) →
      ((100 : Nat) : ℚ) / ((100 : Nat) : ℚ) ≤ 2 →
      (rrcFallback 100 100 2 2).crop_width = ((100 : Nat) : Int) ∧
      (rrcFallback 100 100 2 2).crop_height = ((100 : Nat) : Int)) ∧
    (rrcFallback 100 100 2 2).h_start
      = (((((100 : Nat) : Int) - (rrcFallback 100 100 2 2).crop_height) / 2 : Int) : ℚ)
        / (((100 : Nat) : ℚ) - ((rrcFallback 100 100 2 2).crop_height : ℚ) + epsTen) ∧
    (rrcFallback 100 100 2 2).w_start
      = (((((100 : Nat) : Int) - (rrcFallback 100 100 2 2).crop_width) / 2 : Int) : ℚ)
        / (((100 : Nat) : ℚ) - ((rrcFallback 100 100 2 2).crop_width : ℚ) + epsTen) :=
  rrcFallback_centered_clamped 100 100 2 2 (by decide) (by decide)
    (by norm_num) (by norm_num)

/-! ### The on_float_image decorator (utils.py, lines 62-73)

A tensor is modelled by its dtype tag and its flat list of values (`ℚ` for
the mathematical value of each element); `torch.round` rounds half to even,
`torch.clamp(·, 0, 255)` reuses `clampInt`. -/

inductive DType where
  | uint8
  | float32
  | float64
deriving DecidableEq

structure TImage where
  dtype : DType
  data : List ℚ
deriving DecidableEq

/-- The wrapped function produced by the `on_float_image` decorator. -/
def onFloatImage (func : TImage → TImage) (img : TImage) : TImage :=
  if img.dtype ≠ DType.uint8 then func img
  else
    let tmp : TImage := ⟨DType.float32, img.data.map (fun v => v / 255)⟩
    let result := func tmp
    ⟨img.dtype,
      result.data.map (fun v => ((clampInt (roundHalfEven (v * 255)) 0 255 : Int) : ℚ))⟩

theorem clampInt_0_255_bounds (r : Int) :
    0 ≤ clampInt r 0 255 ∧ clampInt r 0 255 ≤ 255 := by
  simp only [clampInt]
  omega

/-- C9: on an 8-bit image (dtype `uint8`, every value in `[0, 255]`) the
decorator first normalizes by `255` into `[0, 1]`, runs the wrapped
function on the normalized float image, and rescales the output back —
round, clamp to `[0, 255]`, cast to the input dtype — so the result has the
input dtype and values in the 8-bit range; a non-`uint8` image is passed
through unchanged. -/
theorem onFloatImage_spec (func : TImage → TImage) (img : TImage)
    (h8 : img.dtype = DType.uint8) (hdata : ∀ v ∈ img.data, 0 ≤ v ∧ v ≤ 255) :
    (onFloatImage func img).dtype = img.dtype ∧
    (∀ v ∈ img.data.map (fun v => v / 255), 0 ≤ v ∧ v ≤ 1) ∧
    (onFloatImage func img).data
      = (func ⟨DType.float32, img.data.map (fun v => v / 255)⟩).data.map
          (fun v => ((clampInt (roundHalfEven (v * 255)) 0 255 : Int) : ℚ)) ∧
    (∀ v ∈ (onFloatImage func img).data, 0 ≤ v ∧ v ≤ 255) ∧
    (∀ img2 : TImage, img2.dtype ≠ DType.uint8 →
      onFloatImage func img2 = func img2) := by
  have hcond : ¬ (img.dtype ≠ DType.uint8) := by simp [h8]
  refine ⟨?_, ?_, ?_, ?_, ?_⟩
  · rw [onFloatImage, if_neg hcond]
  · intro v hv
    obtain ⟨u, hu, rfl⟩ := List.mem_map.mp hv
    obtain ⟨hu0, hu255⟩ := hdata u hu
    constructor
    · positivity
    · rw [div_le_one (by norm_num)]
      exact hu255
  · rw [onFloatImage, if_neg hcond]
  · intro v hv
    rw [onFloatImage, if_neg hcond] at hv
    obtain ⟨u, _, rfl⟩ := List.mem_map.mp hv
    obtain ⟨hl, hr⟩ := clampInt_0_255_bounds (roundHalfEven (u * 255))
    constructor
    · exact_mod_cast hl
    · exact_mod_cast hr
  · intro img2 h2
    rw [onFloatImage, if_pos h2]

/-- C9 witness: the identity primitive on the `uint8` image with values
`0`, `128`, `255`. -/
theorem onFloatImage_spec_witness :
    (onFloatImage id ⟨DType.uint8, [0, 128, 255]⟩).dtype
      = (⟨DType.uint8, [0, 128, 255]⟩ : TImage).dtype ∧
    (∀ v ∈ (⟨DType.uint8, [0, 128, 255]⟩ : TImage).data.map (fun v => v / 255),
      0 ≤ v ∧ v ≤ 1) ∧
    (onFloatImage id ⟨DType.uint8, [0, 128, 255]⟩).data
      = (id (⟨DType.float32,
            (⟨DType.uint8, [0, 128, 255]⟩ : TImage).data.map (fun v => v / 255)⟩
          : TImage)).data.map
          (fun v => ((clampInt (roundHalfEven (v * 255)) 0 255 : Int) : ℚ)) ∧
    (∀ v ∈ (onFloatImage id ⟨DType.uint8, [0, 128, 255]⟩).data,
      0 ≤ v ∧ v ≤ 255) ∧
    (∀ img2 : TImage, img2.dtype ≠ DType.uint8 →
      onFloatImage id img2 = id img2) :=
  onFloatImage_spec id ⟨DType.uint8, [0, 128, 255]⟩ rfl
    (by intro v hv; simp only [List.mem_cons, List.not_mem_nil, or_false] at hv
        rcases hv with rfl | rfl | rfl <;> norm_num)

/-! ### PadIfNeededTorch.update_params (lines 92-114)

`int((min_height - rows) / 2.0)` on a positive integer difference is exact
floor halving. -/

structure PadParams where
  pad_top : Nat
  pad_bottom : Nat
  pad_left : Nat
  pad_right : Nat
deriving DecidableEq

/-- The padding amounts computed by `PadIfNeededTorch.update_params`. -/
def updateParamsPad (minHeight minWidth rows cols : Nat) : PadParams :=
  let tb : Nat × Nat :=
    if rows < minHeight then
      let t := (minHeight - rows) / 2
      (t, minHeight - rows - t)
    else (0, 0)
  let lr : Nat × Nat :=
    if cols < minWidth then
      let l := (minWidth - cols) / 2
      (l, minWidth - cols - l)
    else (0, 0)
  { pad_top := tb.1, pad_bottom := tb.2, pad_left := lr.1, pad_right := lr.2 }

/-- C10: the four padding amounts are non-negative,
`pad_top + pad_bottom = max 0 (min_height - rows)` and
`pad_left + pad_right = max 0 (min_width - cols)`, the split is near-even
with `pad_top = ⌊(min_height - rows) / 2⌋` when vertical padding occurs (so
`pad_bottom - pad_top` is `0` or `1`, likewise horizontally), and an axis
that already meets the minimum gets zero padding on both sides. -/
theorem updateParamsPad_spec (minHeight minWidth rows cols : Nat) :
    (((updateParamsPad minHeight minWidth rows cols).pad_top : Int)
        + ((updateParamsPad minHeight minWidth rows cols).pad_bottom : Int)
        = max 0 ((minHeight : Int) - (rows : Int))) ∧
    (((updateParamsPad minHeight minWidth rows cols).pad_left : Int)
        + ((updateParamsPad minHeight minWidth rows cols).pad_right : Int)
        = max 0 ((minWidth : Int) - (cols : Int))) ∧
    (rows < minHeight →
      (updateParamsPad minHeight minWidth rows cols).pad_top
        = (minHeight - rows) / 2) ∧
    (cols < minWidth →
      (updateParamsPad minHeight minWidth rows cols).pad_left
        = (minWidth - cols) / 2) ∧
    ((updateParamsPad minHeight minWidth rows cols).pad_top
        ≤ (updateParamsPad minHeight minWidth rows cols).pad_bottom ∧
      (updateParamsPad minHeight minWidth rows cols).pad_bottom
        - (updateParamsPad minHeight minWidth rows cols).pad_top ≤ 1) ∧
    ((updateParamsPad minHeight minWidth rows cols).pad_left
        ≤ (updateParamsPad minHeight minWidth rows cols).pad_right ∧
      (updateParamsPad minHeight minWidth rows cols).pad_right
        - (updateParamsPad minHeight minWidth rows cols).pad_left ≤ 1) ∧
    (minHeight ≤ rows →
      (updateParamsPad minHeight minWidth rows cols).pad_top = 0 ∧
      (updateParamsPad minHeight minWidth rows cols).pad_bottom = 0) ∧
    (minWidth ≤ cols →
      (updateParamsPad minHeight minWidth rows cols).pad_left = 0 ∧
      (updateParamsPad minHeight minWidth rows cols).pad_right = 0) := by
  simp only [updateParamsPad]
  split_ifs with h1 h2 h2 <;>
    refine ⟨by omega, by omega, by omega, by omega, ⟨by omega, by omega⟩,
      ⟨by omega, by omega⟩, by omega, by omega⟩

/-- C10 witness at `min_height = min_width = 10`, input `4 × 13`. -/
theorem updateParamsPad_spec_witness :
    (((updateParamsPad 10 10 4 13).pad_top : Int)
        + ((updateParamsPad 10 10 4 13).pad_bottom : Int)
        = max 0 ((10 : Int) - (4 : Int))) ∧
    (((updateParamsPad 10 10 4 13).pad_left : Int)
        + ((updateParamsPad 10 10 4 13).pad_right : Int)
        = max 0 ((10 : Int) - (13 : Int))) ∧
    ((4 : Nat) < 10 → (updateParamsPad 10 10 4 13).pad_top = (10 - 4) / 2) ∧
    ((13 : Nat) < 10 → (updateParamsPad 10 10 4 13).pad_left = (10 - 13) / 2) ∧
    ((updateParamsPad 10 10 4 13).pad_top ≤ (updateParamsPad 10 10 4 13).pad_bottom ∧
      (updateParamsPad 10 10 4 13).pad_bottom
        - (updateParamsPad 10 10 4 13).pad_top ≤ 1) ∧
    ((updateParamsPad 10 10 4 13).pad_left ≤ (updateParamsPad 10 10 4 13).pad_right ∧
      (updateParamsPad 10 10 4 13).pad_right
        - (updateParamsPad 10 10 4 13).pad_left ≤ 1) ∧
    ((10 : Nat) ≤ 4 →
      (updateParamsPad 10 10 4 13).pad_top = 0 ∧
      (updateParamsPad 10 10 4 13).pad_bottom = 0) ∧
    ((10 : Nat) ≤ 13 →
      (updateParamsPad 10 10 4 13).pad_left = 0 ∧
      (updateParamsPad 10 10 4 13).pad_right = 0) :=
  updateParamsPad_spec 10 10 4 13

end AlbTorch
